import Mathlib

/-
Verification of the segbitset library (segbitset.h): a bitset stored on a
segment tree of OR-summaries.  The backing std::bitset<1 + 4N> is modelled
as a total function from slot indices to Bool (slot 0 unused, root at 1);
recursive tree walks of the source are modelled with an explicit fuel
parameter, every public entry point passing fuel N, which strictly exceeds
the interval size of every reachable recursive call.  Fallible operations
(the pos >= N range checks that throw std::out_of_range) return Except.
-/

namespace segbitset

/-- A backing bitset of the tree (std::bitset of size 1 + 4N), slot-indexed. -/
abbrev Tree := Nat → Bool

/-- A dense input/output vector (std::bitset of size N), position-indexed. -/
abbrev Vec := Nat → Bool

/-- Writing one slot of a bitset: tree[x] = b. -/
def update (t : Tree) (x : Nat) (b : Bool) : Tree :=
  fun y => if y = x then b else t y

/-- Left child index: x << 1. -/
def __ls (x : Nat) : Nat := 2 * x

/-- Right child index: (x << 1) | 1. -/
def __rs (x : Nat) : Nat := 2 * x + 1

/-- segbitset::__pushup: tree[x] = tree[ls x] | tree[rs x]. -/
def __pushup (t : Tree) (x : Nat) : Tree :=
  update t x (t (__ls x) || t (__rs x))

/-- Loop body of segbitset::__pushup_to_root with an explicit iteration
bound; x itself bounds the number of halvings until 0. -/
def __pushup_loop : Nat → Tree → Nat → Tree
  | 0, t, _ => t
  | fuel + 1, t, x => if x = 0 then t else __pushup_loop fuel (__pushup t x) (x / 2)

/-- segbitset::__pushup_to_root: while (x) { pushup x; x >>= 1; }. -/
def __pushup_to_root (t : Tree) (x : Nat) : Tree := __pushup_loop x t x

/-- segbitset::__build: seed leaves from the dense vector a, pushup on the
way back.  Fuel bounds the recursion depth of the source. -/
def __build : Nat → Vec → Nat → Nat → Nat → Tree → Tree
  | 0, _, _, _, _, t => t
  | fuel + 1, a, l, r, x, t =>
    if l = r then update t x (a (l - 1))
    else
      let m := (l + r) / 2
      let t1 := __build fuel a l m (__ls x) t
      let t2 := __build fuel a (m + 1) r (__rs x) t1
      __pushup t2 x

/-- The converting constructor segbitset(const std::bitset<N>&): the backing
bitset is value-initialized to all false, then __build(a, 1, N, 1) runs. -/
def ofBitset (N : Nat) (a : Vec) : Tree :=
  __build N a 1 N 1 (fun _ => false)

/-- segbitset::__find: iterative descent to the leaf slot of 1-based
position pos inside [l, r], starting at node x. -/
def __find : Nat → Nat → Nat → Nat → Nat → Nat
  | 0, _, _, _, x => x
  | fuel + 1, pos, l, r, x =>
    if l = r then x
    else
      let m := (l + r) / 2
      if pos ≤ m then __find fuel pos l m (__ls x)
      else __find fuel pos (m + 1) r (__rs x)

/-- segbitset::test(pos): throws out_of_range when pos >= N, otherwise
reads the leaf slot of pos. -/
def test (N : Nat) (t : Tree) (pos : Nat) : Except String Bool :=
  if pos ≥ N then Except.error "segbitset::test pos >= N"
  else Except.ok (t (__find N (pos + 1) 1 N 1))

/-- segbitset::set(pos, value): throws when pos >= N; otherwise writes
tree[x] = 1 at the leaf (the source ignores the value argument) and
propagates up from the parent. -/
def set (N : Nat) (t : Tree) (pos : Nat) (value : Bool) : Except String Tree :=
  if pos ≥ N then Except.error "segbitset::set pos >= N"
  else
    let x := __find N (pos + 1) 1 N 1
    Except.ok (__pushup_to_root (update t x true) (x / 2))

/-- segbitset::reset(pos): throws when pos >= N; otherwise writes
tree[x] = 0 at the leaf and propagates up from the parent. -/
def reset (N : Nat) (t : Tree) (pos : Nat) : Except String Tree :=
  if pos ≥ N then Except.error "segbitset::reset pos >= N"
  else
    let x := __find N (pos + 1) 1 N 1
    Except.ok (__pushup_to_root (update t x false) (x / 2))

/-- segbitset::flip(pos): throws when pos >= N; otherwise negates the leaf
slot and propagates up from the parent. -/
def flip (N : Nat) (t : Tree) (pos : Nat) : Except String Tree :=
  if pos ≥ N then Except.error "segbitset::flip pos >= N"
  else
    let x := __find N (pos + 1) 1 N 1
    Except.ok (__pushup_to_root (update t x (!(t x))) (x / 2))

/-- segbitset::set() with no argument: tree.set(), which marks every slot
of the backing std::bitset of size 1 + (N << 2) true. -/
def setAll (N : Nat) (t : Tree) : Tree :=
  fun y => if y < 1 + 4 * N then true else t y

/-- segbitset::__reset: prune subtrees whose summary is already false,
clear leaves, pushup on the way back. -/
def __reset : Nat → Nat → Nat → Nat → Tree → Tree
  | 0, _, _, _, t => t
  | fuel + 1, l, r, x, t =>
    if t x = false then t
    else if l = r then update t x false
    else
      let m := (l + r) / 2
      let t1 := __reset fuel l m (__ls x) t
      let t2 := __reset fuel (m + 1) r (__rs x) t1
      __pushup t2 x

/-- segbitset::reset() with no argument: __reset(1, N, 1). -/
def resetAll (N : Nat) (t : Tree) : Tree := __reset N 1 N 1 t

/-- segbitset::__flip: negate every leaf, pushup on the way back. -/
def __flip : Nat → Nat → Nat → Nat → Tree → Tree
  | 0, _, _, _, t => t
  | fuel + 1, l, r, x, t =>
    if l = r then update t x (!(t x))
    else
      let m := (l + r) / 2
      let t1 := __flip fuel l m (__ls x) t
      let t2 := __flip fuel (m + 1) r (__rs x) t1
      __pushup t2 x

/-- segbitset::flip() with no argument: __flip(1, N, 1). -/
def flipAll (N : Nat) (t : Tree) : Tree := __flip N 1 N 1 t

/-- segbitset::operator~: copies the structure and flips the copy in place. -/
def opComplement (N : Nat) (t : Tree) : Tree := flipAll N t

/-- segbitset::any(): reads the root summary. -/
def any (t : Tree) : Bool := t 1

/-- segbitset::none(): negation of the root summary. -/
def none (t : Tree) : Bool := !(t 1)

/-- segbitset::__and_assign: prune where this side's summary is false,
combine at leaves with &, pushup on the way back. -/
def __and_assign : Nat → Tree → Nat → Nat → Nat → Tree → Tree
  | 0, _, _, _, _, t => t
  | fuel + 1, other, l, r, x, t =>
    if t x = false then t
    else if l = r then update t x (t x && other x)
    else
      let m := (l + r) / 2
      let t1 := __and_assign fuel other l m (__ls x) t
      let t2 := __and_assign fuel other (m + 1) r (__rs x) t1
      __pushup t2 x

/-- segbitset::__or_assign: prune where the other side's summary is false,
combine at leaves with |, pushup on the way back. -/
def __or_assign : Nat → Tree → Nat → Nat → Nat → Tree → Tree
  | 0, _, _, _, _, t => t
  | fuel + 1, other, l, r, x, t =>
    if other x = false then t
    else if l = r then update t x (t x || other x)
    else
      let m := (l + r) / 2
      let t1 := __or_assign fuel other l m (__ls x) t
      let t2 := __or_assign fuel other (m + 1) r (__rs x) t1
      __pushup t2 x

/-- segbitset::__xor_assign: prune where the other side's summary is false,
combine at leaves with ^, pushup on the way back. -/
def __xor_assign : Nat → Tree → Nat → Nat → Nat → Tree → Tree
  | 0, _, _, _, _, t => t
  | fuel + 1, other, l, r, x, t =>
    if other x = false then t
    else if l = r then update t x (t x ^^ other x)
    else
      let m := (l + r) / 2
      let t1 := __xor_assign fuel other l m (__ls x) t
      let t2 := __xor_assign fuel other (m + 1) r (__rs x) t1
      __pushup t2 x

/-- segbitset::operator&=: __and_assign(other, 1, N, 1) mutating t. -/
def opAndAssign (N : Nat) (t other : Tree) : Tree := __and_assign N other 1 N 1 t

/-- segbitset::operator|=: __or_assign(other, 1, N, 1) mutating t. -/
def opOrAssign (N : Nat) (t other : Tree) : Tree := __or_assign N other 1 N 1 t

/-- segbitset::operator^=: __xor_assign(other, 1, N, 1) mutating t. -/
def opXorAssign (N : Nat) (t other : Tree) : Tree := __xor_assign N other 1 N 1 t

/-- Non-member operator&: copy the left operand, then &= the right one. -/
def opAnd (N : Nat) (lhs rhs : Tree) : Tree := opAndAssign N lhs rhs

/-- Non-member operator|: copy the left operand, then |= the right one. -/
def opOr (N : Nat) (lhs rhs : Tree) : Tree := opOrAssign N lhs rhs

/-- Non-member operator^: copy the left operand, then ^= the right one. -/
def opXor (N : Nat) (lhs rhs : Tree) : Tree := opXorAssign N lhs rhs

/-- segbitset::__equal, faithfully keeping the swapped interval arguments
of the source's second recursive call (rhs, r, m + 1, rs x).  The source
recursion has no structural termination guarantee on reversed intervals,
so fuel exhaustion is modelled as Option.none; the && of the source
short-circuits, so a false left result suppresses the right call. -/
def __equal : Nat → Tree → Tree → Nat → Nat → Nat → Option Bool
  | 0, _, _, _, _, _ => Option.none
  | fuel + 1, t, rhs, l, r, x =>
    if t x ≠ rhs x then some false
    else if t x = false ∧ rhs x = false then some true
    else if l = r then some true
    else
      let m := (l + r) / 2
      match __equal fuel t rhs l m (__ls x) with
      | Option.none => Option.none
      | some false => some false
      | some true => __equal fuel t rhs r (m + 1) (__rs x)

/-- segbitset::operator==: __equal(rhs, 1, N, 1).  The fuel 4N + 8 exceeds
the descent depth of every terminating comparison considered here. -/
def beq (N : Nat) (t rhs : Tree) : Option Bool := __equal (4 * N + 8) t rhs 1 N 1

/-- segbitset::__to_bitset: write each leaf value into the dense output
vector at its 0-based position. -/
def __to_bitset : Nat → Tree → Nat → Nat → Nat → Vec → Vec
  | 0, _, _, _, _, a => a
  | fuel + 1, t, l, r, x, a =>
    if l = r then update a (l - 1) (t x)
    else
      let m := (l + r) / 2
      let a1 := __to_bitset fuel t l m (__ls x) a
      __to_bitset fuel t (m + 1) r (__rs x) a1

/-- segbitset::to_bitset(std::bitset<N>& a): fill the given vector in
place via __to_bitset(a, 1, N, 1). -/
def to_bitset_inplace (N : Nat) (t : Tree) (a : Vec) : Vec :=
  __to_bitset N t 1 N 1 a

/-- segbitset::to_bitset(): export into a value-initialized (all-false)
dense vector. -/
def to_bitset (N : Nat) (t : Tree) : Vec :=
  to_bitset_inplace N t (fun _ => false)

/-- segbitset::__next: out-parameter search for the first 1-based position
at least pos holding a true bit; ans = 0 means not found yet. -/
def __next : Nat → Tree → Nat → Nat → Nat → Nat → Nat → Nat
  | 0, _, _, _, _, _, ans => ans
  | fuel + 1, t, pos, l, r, x, ans =>
    if t x = false then ans
    else if r < pos then ans
    else if l = r then l
    else
      let m := (l + r) / 2
      let lx := __ls x
      let rx := __rs x
      let ans1 := if ans = 0 ∧ t lx = true then __next fuel t pos l m lx ans else ans
      if ans1 = 0 ∧ t rx = true then __next fuel t pos (m + 1) r rx ans1 else ans1

/-- segbitset::first(): __next from position 1 with ans = 0, decoding
ans = 0 to the sentinel N and otherwise subtracting 1. -/
def first (N : Nat) (t : Tree) : Nat :=
  let ans := __next N t 1 1 N 1 0
  if ans ≠ 0 then ans - 1 else N

/-- segbitset::next(pos): increments pos to exclude the previous result,
then searches from 1-based position pos + 1. -/
def next (N : Nat) (t : Tree) (pos : Nat) : Nat :=
  let pos1 := pos + 1
  let ans := __next N t (pos1 + 1) 1 N 1 0
  if ans ≠ 0 then ans - 1 else N

/-- segbitset::__foreach1 with the callback modelled as accumulation of
the visited 0-based positions, in call order. -/
def __foreach1 : Nat → Tree → Nat → Nat → Nat → List Nat → List Nat
  | 0, _, _, _, _, acc => acc
  | fuel + 1, t, l, r, x, acc =>
    if t x = false then acc
    else if l = r then acc ++ [l - 1]
    else
      let m := (l + r) / 2
      let lx := __ls x
      let rx := __rs x
      let acc1 := if t lx = true then __foreach1 fuel t l m lx acc else acc
      if t rx = true then __foreach1 fuel t (m + 1) r rx acc1 else acc1

/-- segbitset::foreach1(cb): one traversal from the root. -/
def foreach1 (N : Nat) (t : Tree) : List Nat := __foreach1 N t 1 N 1 []

/-- segbitset::operator[] on a mutable structure: range check, then cache
the leaf slot index inside the returned reference handle. -/
def refIndex (N : Nat) (pos : Nat) : Except String Nat :=
  if pos ≥ N then Except.error "segbitset::operator[] pos >= N"
  else Except.ok (__find N (pos + 1) 1 N 1)

/-- reference::operator=(bool): write the cached leaf slot, then
propagate up from its parent. -/
def refAssign (t : Tree) (x : Nat) (value : Bool) : Tree :=
  __pushup_to_root (update t x value) (x / 2)

/-- reference::operator~: b = (tree[x] = !tree[x]), propagate up, return b
together with the updated structure; b is the value after the flip. -/
def refInvert (t : Tree) (x : Nat) : Bool × Tree :=
  let b := !(t x)
  (b, __pushup_to_root (update t x b) (x / 2))

/-- reference::flip(): negates the cached leaf slot; the source performs
no propagation here. -/
def refFlip (t : Tree) (x : Nat) : Tree :=
  update t x (!(t x))

/-- The summary invariant of the spec, checked over the nodes of the
segment tree on [l, r]: every internal node equals the OR of its children. -/
def invariantB : Nat → Tree → Nat → Nat → Nat → Bool
  | 0, _, _, _, _ => true
  | fuel + 1, t, l, r, x =>
    if l = r then true
    else
      let m := (l + r) / 2
      (t x == (t (__ls x) || t (__rs x))) &&
        invariantB fuel t l m (__ls x) && invariantB fuel t (m + 1) r (__rs x)

/-- Representation predicate: the subtree at node x over [l, r] stores the
dense vector a at its leaves and a correct OR summary at every internal
node.  This is the state every public operation of the spec preserves. -/
def models : Nat → Tree → Nat → Nat → Nat → Vec → Bool
  | 0, _, _, _, _, _ => false
  | fuel + 1, t, l, r, x, a =>
    if l = r then t x == a (l - 1)
    else
      let m := (l + r) / 2
      (t x == (t (__ls x) || t (__rs x))) &&
        models fuel t l m (__ls x) a && models fuel t (m + 1) r (__rs x) a

/-- Reference function for the enumeration claims: the least 1-based
position p with l <= p, pos <= p, p <= r and a true bit at p, or 0. -/
def leastIn (a : Vec) (pos l r : Nat) : Nat :=
  if l ≤ r then
    if pos ≤ l ∧ a (l - 1) = true then l else leastIn a pos (l + 1) r
  else 0
termination_by r + 1 - l
decreasing_by simp_wf; omega

/-- Decoding of the __next out-parameter as done by first and next. -/
def decode (N z : Nat) : Nat := if z ≠ 0 then z - 1 else N

/-- The iteration idiom of the spec: p = first(); while p != N; p = next(p),
collecting the visited positions.  Fuel bounds the number of steps. -/
def enumFrom (N : Nat) (t : Tree) : Nat → Nat → List Nat
  | 0, _ => []
  | fuel + 1, p => if p = N then [] else p :: enumFrom N t fuel (next N t p)

/-- The full first/next iteration sequence of a structure. -/
def enumSeq (N : Nat) (t : Tree) : List Nat := enumFrom N t (N + 1) (first N t)

/-- The ascending list of 0-based indices of true bits of a dense vector. -/
def trueIndices (N : Nat) (a : Vec) : List Nat :=
  (List.range N).filter (fun i => a i)

/-- Subtree membership of the implicit heap layout: y is reached from x by
repeated halving, that is y lies in the subtree rooted at x. -/
def Desc (x y : Nat) : Prop := ∃ n, y / 2 ^ n = x

lemma desc_refl (x : Nat) : Desc x x := ⟨0, by simp⟩

lemma desc_ls (x : Nat) : Desc x (__ls x) := ⟨1, by simp only [__ls, pow_one]; omega⟩

lemma desc_rs (x : Nat) : Desc x (__rs x) := ⟨1, by simp only [__rs, pow_one]; omega⟩

lemma desc_le {x y : Nat} (h : Desc x y) : x ≤ y := by
  obtain ⟨n, hn⟩ := h
  exact hn ▸ Nat.div_le_self y _

lemma desc_trans {x y z : Nat} (h1 : Desc x y) (h2 : Desc y z) : Desc x z := by
  obtain ⟨n, hn⟩ := h1
  obtain ⟨m, hm⟩ := h2
  exact ⟨m + n, by rw [pow_add, ← Nat.div_div_eq_div_mul, hm, hn]⟩

lemma desc_cases {x y : Nat} (h : Desc x y) :
    y = x ∨ Desc (__ls x) y ∨ Desc (__rs x) y := by
  obtain ⟨n, hn⟩ := h
  cases n with
  | zero => left; simpa using hn
  | succ m =>
    right
    have h2 : y / 2 ^ m / 2 = x := by
      rw [Nat.div_div_eq_div_mul, ← pow_succ]; exact hn
    have hw := Nat.div_add_mod (y / 2 ^ m) 2
    rcases Nat.mod_two_eq_zero_or_one (y / 2 ^ m) with h0 | h1
    · exact Or.inl ⟨m, by simp only [__ls]; omega⟩
    · exact Or.inr ⟨m, by simp only [__rs]; omega⟩

lemma desc_ls_rs_disjoint {x y : Nat} (hx : 1 ≤ x)
    (h1 : Desc (__ls x) y) (h2 : Desc (__rs x) y) : False := by
  obtain ⟨n, hn⟩ := h1
  obtain ⟨m, hm⟩ := h2
  simp only [__ls] at hn
  simp only [__rs] at hm
  rcases lt_trichotomy n m with h | h | h
  · have he : y / 2 ^ m = y / 2 ^ n / 2 ^ (m - n) := by
      rw [Nat.div_div_eq_div_mul, ← pow_add, Nat.add_sub_cancel' (le_of_lt h)]
    rw [hm, hn] at he
    have hle : 2 * x / 2 ^ (m - n) ≤ 2 * x / 2 :=
      Nat.div_le_div_left (Nat.one_lt_two_pow_iff.mpr (by omega)) (by omega)
    omega
  · subst h
    omega
  · have he : y / 2 ^ n = y / 2 ^ m / 2 ^ (n - m) := by
      rw [Nat.div_div_eq_div_mul, ← pow_add, Nat.add_sub_cancel' (le_of_lt h)]
    rw [hm, hn] at he
    have hle : (2 * x + 1) / 2 ^ (n - m) ≤ (2 * x + 1) / 2 :=
      Nat.div_le_div_left (Nat.one_lt_two_pow_iff.mpr (by omega)) (by omega)
    omega

lemma desc_ls_lt {x y : Nat} (hx : 1 ≤ x) (h : Desc (__ls x) y) : x < y := by
  have := desc_le h
  simp only [__ls] at this
  omega

lemma desc_rs_lt {x y : Nat} (hx : 1 ≤ x) (h : Desc (__rs x) y) : x < y := by
  have := desc_le h
  simp only [__rs] at this
  omega

lemma not_desc_ls {x z : Nat} (h : ¬ Desc x z) : ¬ Desc (__ls x) z :=
  fun hd => h (desc_trans (desc_ls x) hd)

lemma not_desc_rs {x z : Nat} (h : ¬ Desc x z) : ¬ Desc (__rs x) z :=
  fun hd => h (desc_trans (desc_rs x) hd)

lemma not_desc_ne {x z : Nat} (h : ¬ Desc x z) : z ≠ x :=
  fun he => h (he ▸ desc_refl x)

/-- The slots written by __pushup_to_root are all at most x, hence slots
strictly above x are untouched. -/
lemma pushup_loop_agree : ∀ (fuel : Nat) (t : Tree) (x z : Nat), x < z →
    __pushup_loop fuel t x z = t z := by
  intro fuel
  induction fuel with
  | zero => intro t x z _; rfl
  | succ fuel ih =>
    intro t x z hz
    simp only [__pushup_loop]
    by_cases hx : x = 0
    · rw [if_pos hx]
    · rw [if_neg hx, ih _ _ _ (by omega)]
      simp [__pushup, update]
      omega

lemma pushup_to_root_agree (t : Tree) (x z : Nat) (hz : x < z) :
    __pushup_to_root t x z = t z :=
  pushup_loop_agree x t x z hz

/-- __build writes only slots inside the subtree of x. -/
lemma build_agree : ∀ (fuel : Nat) (a : Vec) (l r x : Nat) (t : Tree) (z : Nat),
    ¬ Desc x z → __build fuel a l r x t z = t z := by
  intro fuel
  induction fuel with
  | zero => intro a l r x t z _; rfl
  | succ fuel ih =>
    intro a l r x t z hz
    have hzx : z ≠ x := not_desc_ne hz
    simp only [__build]
    by_cases hlr : l = r
    · rw [if_pos hlr]
      simp [update, hzx]
    · rw [if_neg hlr]
      simp only [__pushup, update, if_neg hzx]
      rw [ih _ _ _ _ _ _ (not_desc_rs hz), ih _ _ _ _ _ _ (not_desc_ls hz)]

lemma pushup_at_self (t : Tree) (x : Nat) : __pushup t x x = (t (__ls x) || t (__rs x)) := by
  simp [__pushup, update]

lemma pushup_at_ne (t : Tree) (x z : Nat) (h : z ≠ x) : __pushup t x z = t z := by
  simp [__pushup, update, h]

/-- __find descends inside the subtree of x. -/
lemma find_desc : ∀ (fuel : Nat) (pos l r x : Nat), Desc x (__find fuel pos l r x) := by
  intro fuel
  induction fuel with
  | zero => intro pos l r x; exact desc_refl x
  | succ fuel ih =>
    intro pos l r x
    simp only [__find]
    by_cases hlr : l = r
    · rw [if_pos hlr]; exact desc_refl x
    · rw [if_neg hlr]
      by_cases hp : pos ≤ (l + r) / 2
      · rw [if_pos hp]; exact desc_trans (desc_ls x) (ih _ _ _ _)
      · rw [if_neg hp]; exact desc_trans (desc_rs x) (ih _ _ _ _)

lemma find_le (fuel pos l r x : Nat) : x ≤ __find fuel pos l r x :=
  desc_le (find_desc fuel pos l r x)

/-- models is insensitive to slots outside the subtree of x. -/
lemma models_congr : ∀ (fuel : Nat) (t1 t2 : Tree) (l r x : Nat) (a : Vec),
    (∀ y, Desc x y → t1 y = t2 y) → models fuel t1 l r x a = models fuel t2 l r x a := by
  intro fuel
  induction fuel with
  | zero => intros; rfl
  | succ fuel ih =>
    intro t1 t2 l r x a h
    simp only [models]
    by_cases hlr : l = r
    · rw [if_pos hlr, if_pos hlr, h x (desc_refl x)]
    · rw [if_neg hlr, if_neg hlr,
          h x (desc_refl x), h (__ls x) (desc_ls x), h (__rs x) (desc_rs x),
          ih t1 t2 _ _ _ _ (fun y hy => h y (desc_trans (desc_ls x) hy)),
          ih t1 t2 _ _ _ _ (fun y hy => h y (desc_trans (desc_rs x) hy))]

/-- models only constrains the vector at positions of [l, r]. -/
lemma models_ext : ∀ (fuel : Nat) (t : Tree) (l r x : Nat) (a b : Vec),
    models fuel t l r x a = true → l ≤ r →
    (∀ p, l ≤ p → p ≤ r → a (p - 1) = b (p - 1)) →
    models fuel t l r x b = true := by
  intro fuel
  induction fuel with
  | zero => intro t l r x a b hm _ _; simp [models] at hm
  | succ fuel ih =>
    intro t l r x a b hm hlr0 hab
    simp only [models] at hm ⊢
    by_cases hlr : l = r
    · rw [if_pos hlr] at hm ⊢
      rw [← hab l le_rfl hlr0]
      exact hm
    · rw [if_neg hlr] at hm ⊢
      have hm1 : l ≤ (l + r) / 2 := by omega
      have hm2 : (l + r) / 2 < r := by omega
      simp only [Bool.and_eq_true] at hm ⊢
      refine ⟨⟨hm.1.1, ?_⟩, ?_⟩
      · exact ih _ _ _ _ _ _ hm.1.2 hm1 (fun p h1 h2 => hab p h1 (by omega))
      · exact ih _ _ _ _ _ _ hm.2 (by omega) (fun p h1 h2 => hab p (by omega) h2)

/-- The summary reading of models: a node's value is true exactly when its
range contains a set position of the represented vector. -/
lemma models_summary : ∀ (fuel : Nat) (t : Tree) (l r x : Nat) (a : Vec),
    models fuel t l r x a = true → l ≤ r →
    (t x = true ↔ ∃ p, l ≤ p ∧ p ≤ r ∧ a (p - 1) = true) := by
  intro fuel
  induction fuel with
  | zero => intro t l r x a hm _; simp [models] at hm
  | succ fuel ih =>
    intro t l r x a hm hlr0
    simp only [models] at hm
    by_cases hlr : l = r
    · rw [if_pos hlr] at hm
      have hv : t x = a (l - 1) := by
        have := hm
        exact eq_of_beq this
      constructor
      · intro h
        exact ⟨l, le_rfl, by omega, by rw [← hv]; exact h⟩
      · intro ⟨p, h1, h2, h3⟩
        have hp : p = l := by omega
        subst hp
        rw [hv]
        exact h3
    · rw [if_neg hlr] at hm
      simp only [Bool.and_eq_true] at hm
      have hm1 : l ≤ (l + r) / 2 := by omega
      have hm2 : (l + r) / 2 < r := by omega
      have hv : t x = (t (__ls x) || t (__rs x)) := eq_of_beq hm.1.1
      have ihl := ih _ _ _ _ _ hm.1.2 hm1
      have ihr := ih _ _ _ _ _ hm.2 (by omega)
      rw [hv, Bool.or_eq_true, ihl, ihr]
      constructor
      · rintro (⟨p, h1, h2, h3⟩ | ⟨p, h1, h2, h3⟩)
        · exact ⟨p, h1, by omega, h3⟩
        · exact ⟨p, by omega, h2, h3⟩
      · rintro ⟨p, h1, h2, h3⟩
        by_cases hp : p ≤ (l + r) / 2
        · exact Or.inl ⟨p, h1, hp, h3⟩
        · exact Or.inr ⟨p, by omega, h2, h3⟩

/-- In a modeled subtree the leaf slot located by __find holds the bit of
the represented vector at that position. -/
lemma models_find : ∀ (fuel : Nat) (t : Tree) (l r x : Nat) (a : Vec) (p : Nat),
    models fuel t l r x a = true → l ≤ p → p ≤ r →
    t (__find fuel p l r x) = a (p - 1) := by
  intro fuel
  induction fuel with
  | zero => intro t l r x a p hm _ _; simp [models] at hm
  | succ fuel ih =>
    intro t l r x a p hm h1 h2
    simp only [models] at hm
    simp only [__find]
    by_cases hlr : l = r
    · rw [if_pos hlr] at hm
      rw [if_pos hlr]
      have hp : p = l := by omega
      subst hp
      exact eq_of_beq hm
    · rw [if_neg hlr] at hm
      rw [if_neg hlr]
      simp only [Bool.and_eq_true] at hm
      by_cases hp : p ≤ (l + r) / 2
      · rw [if_pos hp]
        exact ih _ _ _ _ _ _ hm.1.2 h1 hp
      · rw [if_neg hp]
        exact ih _ _ _ _ _ _ hm.2 (by omega) h2

/-- __build establishes the representation predicate. -/
lemma build_models : ∀ (fuel : Nat) (a : Vec) (l r x : Nat) (t : Tree),
    l ≤ r → r - l < fuel → 1 ≤ x →
    models fuel (__build fuel a l r x t) l r x a = true := by
  intro fuel
  induction fuel with
  | zero => intro a l r x t _ hf _; omega
  | succ fuel ih =>
    intro a l r x t hlr0 hf hx
    by_cases hlr : l = r
    · simp [__build, models, if_pos hlr, update]
    · have hm1 : l ≤ (l + r) / 2 := by omega
      have hm2 : (l + r) / 2 < r := by omega
      simp only [__build, models, if_neg hlr, Bool.and_eq_true]
      set m := (l + r) / 2 with hmdef
      set t1 := __build fuel a l m (__ls x) t with ht1
      set t2 := __build fuel a (m + 1) r (__rs x) t1 with ht2
      have hlsx : __ls x ≠ x := by simp only [__ls]; omega
      have hrsx : __rs x ≠ x := by simp only [__rs]; omega
      refine ⟨⟨?_, ?_⟩, ?_⟩
      · rw [pushup_at_self, pushup_at_ne _ _ _ hlsx, pushup_at_ne _ _ _ hrsx]
        exact beq_self_eq_true _
      · have hL : models fuel t1 l m (__ls x) a := ih a l m (__ls x) t hm1 (by omega) (by simp only [__ls]; omega)
        rw [models_congr fuel (__pushup t2 x) t1 l m (__ls x) a ?_]
        · exact hL
        · intro y hy
          have hyx : y ≠ x := by
            have := desc_ls_lt hx hy
            omega
          rw [pushup_at_ne _ _ _ hyx, ht2,
              build_agree fuel a (m + 1) r (__rs x) t1 y
                (fun hc => desc_ls_rs_disjoint hx hy hc)]
      · have hR : models fuel t2 (m + 1) r (__rs x) a :=
          ih a (m + 1) r (__rs x) t1 (by omega) (by omega) (by simp only [__rs]; omega)
        rw [models_congr fuel (__pushup t2 x) t2 (m + 1) r (__rs x) a ?_]
        · exact hR
        · intro y hy
          have hyx : y ≠ x := by
            have := desc_rs_lt hx hy
            omega
          rw [pushup_at_ne _ _ _ hyx]

/-- __reset writes only slots inside the subtree of x. -/
lemma reset_agree : ∀ (fuel : Nat) (l r x : Nat) (t : Tree) (z : Nat),
    ¬ Desc x z → __reset fuel l r x t z = t z := by
  intro fuel
  induction fuel with
  | zero => intro l r x t z _; rfl
  | succ fuel ih =>
    intro l r x t z hz
    have hzx : z ≠ x := not_desc_ne hz
    simp only [__reset]
    by_cases h0 : t x = false
    · rw [if_pos h0]
    · rw [if_neg h0]
      by_cases hlr : l = r
      · rw [if_pos hlr]
        simp [update, hzx]
      · rw [if_neg hlr]
        simp only [__pushup, update, if_neg hzx]
        rw [ih _ _ _ _ _ (not_desc_rs hz), ih _ _ _ _ _ (not_desc_ls hz)]

/-- __flip writes only slots inside the subtree of x. -/
lemma flip_agree : ∀ (fuel : Nat) (l r x : Nat) (t : Tree) (z : Nat),
    ¬ Desc x z → __flip fuel l r x t z = t z := by
  intro fuel
  induction fuel with
  | zero => intro l r x t z _; rfl
  | succ fuel ih =>
    intro l r x t z hz
    have hzx : z ≠ x := not_desc_ne hz
    simp only [__flip]
    by_cases hlr : l = r
    · rw [if_pos hlr]
      simp [update, hzx]
    · rw [if_neg hlr]
      simp only [__pushup, update, if_neg hzx]
      rw [ih _ _ _ _ _ (not_desc_rs hz), ih _ _ _ _ _ (not_desc_ls hz)]

/-- __and_assign writes only slots inside the subtree of x. -/
lemma and_assign_agree : ∀ (fuel : Nat) (other : Tree) (l r x : Nat) (t : Tree) (z : Nat),
    ¬ Desc x z → __and_assign fuel other l r x t z = t z := by
  intro fuel
  induction fuel with
  | zero => intro other l r x t z _; rfl
  | succ fuel ih =>
    intro other l r x t z hz
    have hzx : z ≠ x := not_desc_ne hz
    simp only [__and_assign]
    by_cases h0 : t x = false
    · rw [if_pos h0]
    · rw [if_neg h0]
      by_cases hlr : l = r
      · rw [if_pos hlr]
        simp [update, hzx]
      · rw [if_neg hlr]
        simp only [__pushup, update, if_neg hzx]
        rw [ih _ _ _ _ _ _ (not_desc_rs hz), ih _ _ _ _ _ _ (not_desc_ls hz)]

/-- __or_assign writes only slots inside the subtree of x. -/
lemma or_assign_agree : ∀ (fuel : Nat) (other : Tree) (l r x : Nat) (t : Tree) (z : Nat),
    ¬ Desc x z → __or_assign fuel other l r x t z = t z := by
  intro fuel
  induction fuel with
  | zero => intro other l r x t z _; rfl
  | succ fuel ih =>
    intro other l r x t z hz
    have hzx : z ≠ x := not_desc_ne hz
    simp only [__or_assign]
    by_cases h0 : other x = false
    · rw [if_pos h0]
    · rw [if_neg h0]
      by_cases hlr : l = r
      · rw [if_pos hlr]
        simp [update, hzx]
      · rw [if_neg hlr]
        simp only [__pushup, update, if_neg hzx]
        rw [ih _ _ _ _ _ _ (not_desc_rs hz), ih _ _ _ _ _ _ (not_desc_ls hz)]

/-- __xor_assign writes only slots inside the subtree of x. -/
lemma xor_assign_agree : ∀ (fuel : Nat) (other : Tree) (l r x : Nat) (t : Tree) (z : Nat),
    ¬ Desc x z → __xor_assign fuel other l r x t z = t z := by
  intro fuel
  induction fuel with
  | zero => intro other l r x t z _; rfl
  | succ fuel ih =>
    intro other l r x t z hz
    have hzx : z ≠ x := not_desc_ne hz
    simp only [__xor_assign]
    by_cases h0 : other x = false
    · rw [if_pos h0]
    · rw [if_neg h0]
      by_cases hlr : l = r
      · rw [if_pos hlr]
        simp [update, hzx]
      · rw [if_neg hlr]
        simp only [__pushup, update, if_neg hzx]
        rw [ih _ _ _ _ _ _ (not_desc_rs hz), ih _ _ _ _ _ _ (not_desc_ls hz)]

/-- __to_bitset writes only output slots of the 0-based range [l-1, r-1]. -/
lemma to_bitset_agree : ∀ (fuel : Nat) (t : Tree) (l r x : Nat) (a : Vec) (z : Nat),
    1 ≤ l → l ≤ r → (z + 1 < l ∨ r < z + 1) → __to_bitset fuel t l r x a z = a z := by
  intro fuel
  induction fuel with
  | zero => intro t l r x a z _ _ _; rfl
  | succ fuel ih =>
    intro t l r x a z hl hlr0 hz
    simp only [__to_bitset]
    by_cases hlr : l = r
    · rw [if_pos hlr]
      have hne : z ≠ l - 1 := by omega
      simp [update, hne]
    · rw [if_neg hlr]
      have hm1 : l ≤ (l + r) / 2 := by omega
      have hm2 : (l + r) / 2 < r := by omega
      rw [ih _ _ _ _ _ _ (by omega) (by omega) (by omega),
          ih _ _ _ _ _ _ hl hm1 (by omega)]

/-- Exporting a modeled subtree recovers the represented vector. -/
lemma models_to_bitset : ∀ (fuel : Nat) (t : Tree) (l r x : Nat) (a : Vec) (c : Vec) (i : Nat),
    models fuel t l r x a = true → l ≤ i + 1 → i + 1 ≤ r → 1 ≤ l →
    __to_bitset fuel t l r x c i = a i := by
  intro fuel
  induction fuel with
  | zero => intro t l r x a c i hm _ _ _; simp [models] at hm
  | succ fuel ih =>
    intro t l r x a c i hm h1 h2 hl
    simp only [models] at hm
    simp only [__to_bitset]
    by_cases hlr : l = r
    · rw [if_pos hlr] at hm ⊢
      have hi : i = l - 1 := by omega
      have hv : t x = a (l - 1) := eq_of_beq hm
      subst hi
      simp [update, hv]
    · rw [if_neg hlr] at hm ⊢
      simp only [Bool.and_eq_true] at hm
      have hm1 : l ≤ (l + r) / 2 := by omega
      have hm2 : (l + r) / 2 < r := by omega
      by_cases hp : i + 1 ≤ (l + r) / 2
      · rw [to_bitset_agree _ _ _ _ _ _ _ (by omega) (by omega) (by omega)]
        exact ih _ _ _ _ _ _ _ hm.1.2 h1 hp hl
      · exact ih _ _ _ _ _ _ _ hm.2 (by omega) h2 (by omega)

/-- For any tree, __to_bitset writes into output slot i the value of the
leaf slot that __find locates for position i + 1. -/
lemma tobitset_find : ∀ (fuel : Nat) (t : Tree) (l r x : Nat) (c : Vec) (i : Nat),
    l ≤ i + 1 → i + 1 ≤ r → 1 ≤ l → r - l < fuel →
    __to_bitset fuel t l r x c i = t (__find fuel (i + 1) l r x) := by
  intro fuel
  induction fuel with
  | zero => intro t l r x c i _ _ _ hf; omega
  | succ fuel ih =>
    intro t l r x c i h1 h2 hl hf
    simp only [__to_bitset, __find]
    by_cases hlr : l = r
    · rw [if_pos hlr, if_pos hlr]
      have hi : i = l - 1 := by omega
      subst hi
      simp [update]
    · rw [if_neg hlr, if_neg hlr]
      have hm1 : l ≤ (l + r) / 2 := by omega
      have hm2 : (l + r) / 2 < r := by omega
      by_cases hp : i + 1 ≤ (l + r) / 2
      · rw [if_pos hp,
            to_bitset_agree _ _ _ _ _ _ _ (by omega) (by omega) (by omega)]
        exact ih _ _ _ _ _ _ h1 hp hl (by omega)
      · rw [if_neg hp]
        exact ih _ _ _ _ _ _ (by omega) h2 (by omega) (by omega)

/-- C3: for every dense boolean vector v of length N, building a structure
from v and then exporting it back yields v again at every position. -/
theorem C3_round_trip (N : Nat) (a : Vec) (i : Nat) (hN : 1 ≤ N) (hi : i < N) :
    to_bitset N (ofBitset N a) i = a i := by
  have hb := build_models N a 1 N 1 (fun _ => false) hN (by omega) le_rfl
  exact models_to_bitset N _ 1 N 1 a _ i hb (by omega) (by omega) le_rfl

theorem C3_round_trip_witness :
    (1 : Nat) ≤ 3 ∧ (1 : Nat) < 3 ∧
      to_bitset 3 (ofBitset 3 (fun i => i == 1)) 1 = ((1 : Nat) == 1) :=
  ⟨by decide, by decide, C3_round_trip 3 (fun i => i == 1) 1 (by decide) (by decide)⟩

/-- C10: the in-place export to_bitset(a) assigns every output slot the
current bit of the structure at that position, for every initial content
of the output vector; so its result equals test at every position. -/
theorem C10_inplace_export (N : Nat) (t : Tree) (c : Vec) (i : Nat)
    (hN : 1 ≤ N) (hi : i < N) :
    to_bitset_inplace N t c i = t (__find N (i + 1) 1 N 1) ∧
    test N t i = Except.ok (to_bitset_inplace N t c i) := by
  have he : to_bitset_inplace N t c i = t (__find N (i + 1) 1 N 1) :=
    tobitset_find N t 1 N 1 c i (by omega) (by omega) le_rfl (by omega)
  refine ⟨he, ?_⟩
  rw [he]
  simp only [test]
  rw [if_neg (by omega)]

theorem C10_inplace_export_witness :
    (1 : Nat) ≤ 2 ∧ (0 : Nat) < 2 ∧
      (to_bitset_inplace 2 (update (fun _ => false) 2 true) (fun _ => true) 0 =
          update (fun _ => false) 2 true (__find 2 1 1 2 1) ∧
        test 2 (update (fun _ => false) 2 true) 0 =
          Except.ok (to_bitset_inplace 2 (update (fun _ => false) 2 true) (fun _ => true) 0)) :=
  ⟨by decide, by decide,
    C10_inplace_export 2 (update (fun _ => false) 2 true) (fun _ => true) 0
      (by decide) (by decide)⟩

/-- C7: every position-addressed operation called with pos >= N signals the
out-of-range error; the range check precedes any mutation, so the returned
error carries no modified structure and the tree is untouched. -/
theorem C7_out_of_range (N : Nat) (t : Tree) (pos : Nat) (v : Bool) (h : N ≤ pos) :
    test N t pos = Except.error "segbitset::test pos >= N" ∧
    set N t pos v = Except.error "segbitset::set pos >= N" ∧
    reset N t pos = Except.error "segbitset::reset pos >= N" ∧
    flip N t pos = Except.error "segbitset::flip pos >= N" ∧
    refIndex N pos = Except.error "segbitset::operator[] pos >= N" := by
  refine ⟨?_, ?_, ?_, ?_, ?_⟩ <;>
    simp [test, set, reset, flip, refIndex, h]

theorem C7_out_of_range_witness :
    (2 : Nat) ≤ 2 ∧
      (test 2 (fun _ => false) 2 = Except.error "segbitset::test pos >= N" ∧
        set 2 (fun _ => false) 2 true = Except.error "segbitset::set pos >= N" ∧
        reset 2 (fun _ => false) 2 = Except.error "segbitset::reset pos >= N" ∧
        flip 2 (fun _ => false) 2 = Except.error "segbitset::flip pos >= N" ∧
        refIndex 2 2 = Except.error "segbitset::operator[] pos >= N") :=
  ⟨by decide, C7_out_of_range 2 (fun _ => false) 2 true (by decide)⟩

/-- C1: evaluation of the code at the failing input.  On an all-false
structure of size 2, the handle of position 0 caches leaf slot 2; the
summary invariant holds beforehand, but after reference::flip() the leaf
reads back true while the root summary still reads false, so the internal
node 1 violates value(x) == value(left x) OR value(right x). -/
theorem C1_reference_flip_breaks_invariant :
    refIndex 2 0 = Except.ok 2 ∧
    invariantB 2 (fun _ => false) 1 2 1 = true ∧
    invariantB 2 (refFlip (fun _ => false) 2) 1 2 1 = false ∧
    test 2 (refFlip (fun _ => false) 2) 0 = Except.ok true ∧
    any (refFlip (fun _ => false) 2) = false :=
  ⟨rfl, by decide, by decide, rfl, by decide⟩

/-- C2: evaluation of the code at the failing input.  set(0, false) on an
all-false one-bit structure stores 1 (the source executes tree[x] = 1,
ignoring the value argument), so test(0) afterwards returns true where the
claim requires false; reset(0) by contrast leaves the bit false. -/
theorem C2_set_ignores_value :
    Except.bind (set 1 (fun _ => false) 0 false) (fun tr => test 1 tr 0) =
      Except.ok true ∧
    Except.bind (reset 1 (fun _ => false) 0) (fun tr => test 1 tr 0) =
      Except.ok false :=
  ⟨rfl, rfl⟩

/-- C6: evaluation of the code at the failing input.  A is a size-4
structure after bulk set() (every backing slot true), B is built from the
all-ones dense vector; every logical position holds true in both, yet
operator== returns false, because the second recursive call of __equal
swaps the interval bounds and the descent reaches backing slot 12, where
A holds 1 and B holds 0. -/
theorem C6_equal_counterexample :
    test 4 (setAll 4 (fun _ => false)) 0 = Except.ok true ∧
    test 4 (setAll 4 (fun _ => false)) 1 = Except.ok true ∧
    test 4 (setAll 4 (fun _ => false)) 2 = Except.ok true ∧
    test 4 (setAll 4 (fun _ => false)) 3 = Except.ok true ∧
    test 4 (ofBitset 4 (fun _ => true)) 0 = Except.ok true ∧
    test 4 (ofBitset 4 (fun _ => true)) 1 = Except.ok true ∧
    test 4 (ofBitset 4 (fun _ => true)) 2 = Except.ok true ∧
    test 4 (ofBitset 4 (fun _ => true)) 3 = Except.ok true ∧
    beq 4 (setAll 4 (fun _ => false)) (ofBitset 4 (fun _ => true)) = some false :=
  ⟨rfl, rfl, rfl, rfl, rfl, rfl, rfl, rfl, by decide⟩

/-- C8, counterexample: on a structure whose bit 0 is false, the handle's
operator~ returns true, not the previous value false that the claim
requires. -/
theorem C8_counterexample :
    refIndex 1 0 = Except.ok 1 ∧
    test 1 (fun _ => false) 0 = Except.ok false ∧
    (refInvert (fun _ => false) 1).1 = true :=
  ⟨rfl, rfl, by decide⟩

/-- C8, amended: for every valid position pos < N and every structure, the
handle's combined query-and-flip operation flips the bound bit and returns
the value the bit has after the flip, i.e. the negation of the previous
value. -/
theorem C8_query_flip (N : Nat) (t : Tree) (pos x : Nat) (h : pos < N)
    (hx : refIndex N pos = Except.ok x) :
    test N t pos = Except.ok (t x) ∧
    (refInvert t x).1 = !(t x) ∧
    test N ((refInvert t x).2) pos = Except.ok (!(t x)) := by
  have hxe : __find N (pos + 1) 1 N 1 = x := by
    simp only [refIndex] at hx
    rw [if_neg (by omega)] at hx
    exact Except.ok.inj hx
  have hx1 : 1 ≤ x := hxe ▸ find_le N (pos + 1) 1 N 1
  refine ⟨?_, rfl, ?_⟩
  · simp only [test]
    rw [if_neg (by omega), hxe]
  · simp only [test, refInvert]
    rw [if_neg (by omega), hxe,
        pushup_to_root_agree _ _ _ (by omega)]
    simp [update]

theorem C8_query_flip_witness :
    (0 : Nat) < 1 ∧ refIndex 1 0 = Except.ok 1 ∧
      (test 1 (fun _ => false) 0 = Except.ok ((fun _ : Nat => false) 1) ∧
        (refInvert (fun _ => false) 1).1 = !((fun _ : Nat => false) 1) ∧
        test 1 ((refInvert (fun _ => false) 1).2) 0 =
          Except.ok (!((fun _ : Nat => false) 1))) :=
  ⟨by decide, rfl, C8_query_flip 1 (fun _ => false) 0 1 (by decide) rfl⟩

/-- A false summary of a modeled subtree forces every represented bit of
its range to be false. -/
lemma summary_false_all {fuel : Nat} {t : Tree} {l r x : Nat} {a : Vec}
    (hm : models fuel t l r x a = true) (hlr0 : l ≤ r) (h0 : t x = false) :
    ∀ p, l ≤ p → p ≤ r → a (p - 1) = false := by
  intro p h1 h2
  by_contra hc
  have hc' : a (p - 1) = true := by simpa using hc
  have hs := (models_summary fuel t l r x a hm hlr0).mpr ⟨p, h1, h2, hc'⟩
  rw [h0] at hs
  simp at hs

/-- __and_assign on modeled operands represents the pointwise AND. -/
lemma and_models : ∀ (fuel : Nat) (other t : Tree) (l r x : Nat) (a b : Vec),
    models fuel t l r x a = true → models fuel other l r x b = true →
    l ≤ r → r - l < fuel → 1 ≤ x →
    models fuel (__and_assign fuel other l r x t) l r x (fun i => a i && b i) = true := by
  intro fuel
  induction fuel with
  | zero => intro other t l r x a b _ _ _ hf _; omega
  | succ fuel ih =>
    intro other t l r x a b hm hmo hlr0 hf hx
    simp only [__and_assign]
    by_cases h0 : t x = false
    · rw [if_pos h0]
      refine models_ext _ _ _ _ _ a _ hm hlr0 ?_
      intro p h1 h2
      rw [summary_false_all hm hlr0 h0 p h1 h2]
      simp
    · rw [if_neg h0]
      by_cases hlr : l = r
      · rw [if_pos hlr]
        simp only [models, if_pos hlr] at hm hmo ⊢
        rw [eq_of_beq hm, eq_of_beq hmo]
        simp [update]
      · rw [if_neg hlr]
        have hm1 : l ≤ (l + r) / 2 := by omega
        have hm2 : (l + r) / 2 < r := by omega
        simp only [models, if_neg hlr, Bool.and_eq_true] at hm hmo ⊢
        set m := (l + r) / 2 with hmdef
        set t1 := __and_assign fuel other l m (__ls x) t with ht1
        set t2 := __and_assign fuel other (m + 1) r (__rs x) t1 with ht2
        have hlsx : __ls x ≠ x := by simp only [__ls]; omega
        have hrsx : __rs x ≠ x := by simp only [__rs]; omega
        refine ⟨⟨?_, ?_⟩, ?_⟩
        · rw [pushup_at_self, pushup_at_ne _ _ _ hlsx, pushup_at_ne _ _ _ hrsx]
          exact beq_self_eq_true _
        · have hL : models fuel t1 l m (__ls x) (fun i => a i && b i) :=
            ih other t l m (__ls x) a b hm.1.2 hmo.1.2 hm1 (by omega)
              (by simp only [__ls]; omega)
          rw [models_congr fuel (__pushup t2 x) t1 l m (__ls x) _ ?_]
          · exact hL
          · intro y hy
            have hyx : y ≠ x := by
              have := desc_ls_lt hx hy
              omega
            rw [pushup_at_ne _ _ _ hyx, ht2,
                and_assign_agree fuel other (m + 1) r (__rs x) t1 y
                  (fun hc => desc_ls_rs_disjoint hx hy hc)]
        · have hmr : models fuel t1 (m + 1) r (__rs x) a := by
            rw [models_congr fuel t1 t (m + 1) r (__rs x) a ?_]
            · exact hm.2
            · intro y hy
              rw [ht1, and_assign_agree fuel other l m (__ls x) t y
                    (fun hc => desc_ls_rs_disjoint hx hc hy)]
          have hR : models fuel t2 (m + 1) r (__rs x) (fun i => a i && b i) :=
            ih other t1 (m + 1) r (__rs x) a b hmr hmo.2 (by omega) (by omega)
              (by simp only [__rs]; omega)
          rw [models_congr fuel (__pushup t2 x) t2 (m + 1) r (__rs x) _ ?_]
          · exact hR
          · intro y hy
            have hyx : y ≠ x := by
              have := desc_rs_lt hx hy
              omega
            rw [pushup_at_ne _ _ _ hyx]

/-- __or_assign on modeled operands represents the pointwise OR. -/
lemma or_models : ∀ (fuel : Nat) (other t : Tree) (l r x : Nat) (a b : Vec),
    models fuel t l r x a = true → models fuel other l r x b = true →
    l ≤ r → r - l < fuel → 1 ≤ x →
    models fuel (__or_assign fuel other l r x t) l r x (fun i => a i || b i) = true := by
  intro fuel
  induction fuel with
  | zero => intro other t l r x a b _ _ _ hf _; omega
  | succ fuel ih =>
    intro other t l r x a b hm hmo hlr0 hf hx
    simp only [__or_assign]
    by_cases h0 : other x = false
    · rw [if_pos h0]
      refine models_ext _ _ _ _ _ a _ hm hlr0 ?_
      intro p h1 h2
      rw [summary_false_all hmo hlr0 h0 p h1 h2]
      simp
    · rw [if_neg h0]
      by_cases hlr : l = r
      · rw [if_pos hlr]
        simp only [models, if_pos hlr] at hm hmo ⊢
        rw [eq_of_beq hm, eq_of_beq hmo]
        simp [update]
      · rw [if_neg hlr]
        have hm1 : l ≤ (l + r) / 2 := by omega
        have hm2 : (l + r) / 2 < r := by omega
        simp only [models, if_neg hlr, Bool.and_eq_true] at hm hmo ⊢
        set m := (l + r) / 2 with hmdef
        set t1 := __or_assign fuel other l m (__ls x) t with ht1
        set t2 := __or_assign fuel other (m + 1) r (__rs x) t1 with ht2
        have hlsx : __ls x ≠ x := by simp only [__ls]; omega
        have hrsx : __rs x ≠ x := by simp only [__rs]; omega
        refine ⟨⟨?_, ?_⟩, ?_⟩
        · rw [pushup_at_self, pushup_at_ne _ _ _ hlsx, pushup_at_ne _ _ _ hrsx]
          exact beq_self_eq_true _
        · have hL : models fuel t1 l m (__ls x) (fun i => a i || b i) :=
            ih other t l m (__ls x) a b hm.1.2 hmo.1.2 hm1 (by omega)
              (by simp only [__ls]; omega)
          rw [models_congr fuel (__pushup t2 x) t1 l m (__ls x) _ ?_]
          · exact hL
          · intro y hy
            have hyx : y ≠ x := by
              have := desc_ls_lt hx hy
              omega
            rw [pushup_at_ne _ _ _ hyx, ht2,
                or_assign_agree fuel other (m + 1) r (__rs x) t1 y
                  (fun hc => desc_ls_rs_disjoint hx hy hc)]
        · have hmr : models fuel t1 (m + 1) r (__rs x) a := by
            rw [models_congr fuel t1 t (m + 1) r (__rs x) a ?_]
            · exact hm.2
            · intro y hy
              rw [ht1, or_assign_agree fuel other l m (__ls x) t y
                    (fun hc => desc_ls_rs_disjoint hx hc hy)]
          have hR : models fuel t2 (m + 1) r (__rs x) (fun i => a i || b i) :=
            ih other t1 (m + 1) r (__rs x) a b hmr hmo.2 (by omega) (by omega)
              (by simp only [__rs]; omega)
          rw [models_congr fuel (__pushup t2 x) t2 (m + 1) r (__rs x) _ ?_]
          · exact hR
          · intro y hy
            have hyx : y ≠ x := by
              have := desc_rs_lt hx hy
              omega
            rw [pushup_at_ne _ _ _ hyx]

/-- __xor_assign on modeled operands represents the pointwise XOR. -/
lemma xor_models : ∀ (fuel : Nat) (other t : Tree) (l r x : Nat) (a b : Vec),
    models fuel t l r x a = true → models fuel other l r x b = true →
    l ≤ r → r - l < fuel → 1 ≤ x →
    models fuel (__xor_assign fuel other l r x t) l r x (fun i => a i ^^ b i) = true := by
  intro fuel
  induction fuel with
  | zero => intro other t l r x a b _ _ _ hf _; omega
  | succ fuel ih =>
    intro other t l r x a b hm hmo hlr0 hf hx
    simp only [__xor_assign]
    by_cases h0 : other x = false
    · rw [if_pos h0]
      refine models_ext _ _ _ _ _ a _ hm hlr0 ?_
      intro p h1 h2
      rw [summary_false_all hmo hlr0 h0 p h1 h2]
      simp
    · rw [if_neg h0]
      by_cases hlr : l = r
      · rw [if_pos hlr]
        simp only [models, if_pos hlr] at hm hmo ⊢
        rw [eq_of_beq hm, eq_of_beq hmo]
        simp [update]
      · rw [if_neg hlr]
        have hm1 : l ≤ (l + r) / 2 := by omega
        have hm2 : (l + r) / 2 < r := by omega
        simp only [models, if_neg hlr, Bool.and_eq_true] at hm hmo ⊢
        set m := (l + r) / 2 with hmdef
        set t1 := __xor_assign fuel other l m (__ls x) t with ht1
        set t2 := __xor_assign fuel other (m + 1) r (__rs x) t1 with ht2
        have hlsx : __ls x ≠ x := by simp only [__ls]; omega
        have hrsx : __rs x ≠ x := by simp only [__rs]; omega
        refine ⟨⟨?_, ?_⟩, ?_⟩
        · rw [pushup_at_self, pushup_at_ne _ _ _ hlsx, pushup_at_ne _ _ _ hrsx]
          exact beq_self_eq_true _
        · have hL : models fuel t1 l m (__ls x) (fun i => a i ^^ b i) :=
            ih other t l m (__ls x) a b hm.1.2 hmo.1.2 hm1 (by omega)
              (by simp only [__ls]; omega)
          rw [models_congr fuel (__pushup t2 x) t1 l m (__ls x) _ ?_]
          · exact hL
          · intro y hy
            have hyx : y ≠ x := by
              have := desc_ls_lt hx hy
              omega
            rw [pushup_at_ne _ _ _ hyx, ht2,
                xor_assign_agree fuel other (m + 1) r (__rs x) t1 y
                  (fun hc => desc_ls_rs_disjoint hx hy hc)]
        · have hmr : models fuel t1 (m + 1) r (__rs x) a := by
            rw [models_congr fuel t1 t (m + 1) r (__rs x) a ?_]
            · exact hm.2
            · intro y hy
              rw [ht1, xor_assign_agree fuel other l m (__ls x) t y
                    (fun hc => desc_ls_rs_disjoint hx hc hy)]
          have hR : models fuel t2 (m + 1) r (__rs x) (fun i => a i ^^ b i) :=
            ih other t1 (m + 1) r (__rs x) a b hmr hmo.2 (by omega) (by omega)
              (by simp only [__rs]; omega)
          rw [models_congr fuel (__pushup t2 x) t2 (m + 1) r (__rs x) _ ?_]
          · exact hR
          · intro y hy
            have hyx : y ≠ x := by
              have := desc_rs_lt hx hy
              omega
            rw [pushup_at_ne _ _ _ hyx]

/-- __flip on a modeled subtree represents the pointwise negation. -/
lemma flip_models : ∀ (fuel : Nat) (l r x : Nat) (t : Tree) (a : Vec),
    models fuel t l r x a = true → l ≤ r → r - l < fuel → 1 ≤ x →
    models fuel (__flip fuel l r x t) l r x (fun i => !(a i)) = true := by
  intro fuel
  induction fuel with
  | zero => intro l r x t a _ _ hf _; omega
  | succ fuel ih =>
    intro l r x t a hm hlr0 hf hx
    simp only [__flip]
    by_cases hlr : l = r
    · rw [if_pos hlr]
      simp only [models, if_pos hlr] at hm ⊢
      rw [eq_of_beq hm]
      simp [update]
    · rw [if_neg hlr]
      have hm1 : l ≤ (l + r) / 2 := by omega
      have hm2 : (l + r) / 2 < r := by omega
      simp only [models, if_neg hlr, Bool.and_eq_true] at hm ⊢
      set m := (l + r) / 2 with hmdef
      set t1 := __flip fuel l m (__ls x) t with ht1
      set t2 := __flip fuel (m + 1) r (__rs x) t1 with ht2
      have hlsx : __ls x ≠ x := by simp only [__ls]; omega
      have hrsx : __rs x ≠ x := by simp only [__rs]; omega
      refine ⟨⟨?_, ?_⟩, ?_⟩
      · rw [pushup_at_self, pushup_at_ne _ _ _ hlsx, pushup_at_ne _ _ _ hrsx]
        exact beq_self_eq_true _
      · have hL : models fuel t1 l m (__ls x) (fun i => !(a i)) :=
          ih l m (__ls x) t a hm.1.2 hm1 (by omega) (by simp only [__ls]; omega)
        rw [models_congr fuel (__pushup t2 x) t1 l m (__ls x) _ ?_]
        · exact hL
        · intro y hy
          have hyx : y ≠ x := by
            have := desc_ls_lt hx hy
            omega
          rw [pushup_at_ne _ _ _ hyx, ht2,
              flip_agree fuel (m + 1) r (__rs x) t1 y
                (fun hc => desc_ls_rs_disjoint hx hy hc)]
      · have hmr : models fuel t1 (m + 1) r (__rs x) a := by
          rw [models_congr fuel t1 t (m + 1) r (__rs x) a ?_]
          · exact hm.2
          · intro y hy
            rw [ht1, flip_agree fuel l m (__ls x) t y
                  (fun hc => desc_ls_rs_disjoint hx hc hy)]
        have hR : models fuel t2 (m + 1) r (__rs x) (fun i => !(a i)) :=
          ih (m + 1) r (__rs x) t1 a hmr (by omega) (by omega)
            (by simp only [__rs]; omega)
        rw [models_congr fuel (__pushup t2 x) t2 (m + 1) r (__rs x) _ ?_]
        · exact hR
        · intro y hy
          have hyx : y ≠ x := by
            have := desc_rs_lt hx hy
            omega
          rw [pushup_at_ne _ _ _ hyx]

/-- C4: for structures built from dense vectors a and b, the pairwise
in-place combinations are pointwise boolean operations on the exported
vectors: AND, OR, and XOR (boolean inequality) position for position. -/
theorem C4_pointwise_ops (N : Nat) (a b : Vec) (i : Nat) (hN : 1 ≤ N) (hi : i < N) :
    to_bitset N (opAnd N (ofBitset N a) (ofBitset N b)) i = (a i && b i) ∧
    to_bitset N (opOr N (ofBitset N a) (ofBitset N b)) i = (a i || b i) ∧
    to_bitset N (opXor N (ofBitset N a) (ofBitset N b)) i = (a i != b i) := by
  have hma := build_models N a 1 N 1 (fun _ => false) hN (by omega) le_rfl
  have hmb := build_models N b 1 N 1 (fun _ => false) hN (by omega) le_rfl
  refine ⟨?_, ?_, ?_⟩
  · have h := and_models N (ofBitset N b) (ofBitset N a) 1 N 1 a b hma hmb hN
      (by omega) le_rfl
    exact models_to_bitset N _ 1 N 1 _ _ i h (by omega) (by omega) le_rfl
  · have h := or_models N (ofBitset N b) (ofBitset N a) 1 N 1 a b hma hmb hN
      (by omega) le_rfl
    exact models_to_bitset N _ 1 N 1 _ _ i h (by omega) (by omega) le_rfl
  · have h := xor_models N (ofBitset N b) (ofBitset N a) 1 N 1 a b hma hmb hN
      (by omega) le_rfl
    have he := models_to_bitset N _ 1 N 1 (fun i => a i ^^ b i) (fun _ => false) i h
      (by omega) (by omega) le_rfl
    rw [show to_bitset N (opXor N (ofBitset N a) (ofBitset N b)) i =
          __to_bitset N (__xor_assign N (ofBitset N b) 1 N 1 (ofBitset N a)) 1 N 1
            (fun _ => false) i from rfl, he]

theorem C4_pointwise_ops_witness :
    (1 : Nat) ≤ 2 ∧ (0 : Nat) < 2 ∧
      (to_bitset 2 (opAnd 2 (ofBitset 2 (fun i => i == 0)) (ofBitset 2 (fun _ => true))) 0 =
          (((0 : Nat) == 0) && true) ∧
        to_bitset 2 (opOr 2 (ofBitset 2 (fun i => i == 0)) (ofBitset 2 (fun _ => true))) 0 =
          (((0 : Nat) == 0) || true) ∧
        to_bitset 2 (opXor 2 (ofBitset 2 (fun i => i == 0)) (ofBitset 2 (fun _ => true))) 0 =
          (((0 : Nat) == 0) != true)) :=
  ⟨by decide, by decide,
    C4_pointwise_ops 2 (fun i => i == 0) (fun _ => true) 0 (by decide) (by decide)⟩

/-- C9: on any structure holding the representation invariant (an
invariant-satisfying tree representing vector a), the self-applied
operations behave as the claim states: A &= A and A |= A leave every
observable bit unchanged, A ^= A makes every bit false with none() true
afterwards, and double complement restores every observable bit. -/
theorem C9_self_ops (N : Nat) (t : Tree) (a : Vec) (hN : 1 ≤ N)
    (hm : models N t 1 N 1 a = true) :
    (∀ i, i < N → to_bitset N (opAndAssign N t t) i = to_bitset N t i) ∧
    (∀ i, i < N → to_bitset N (opOrAssign N t t) i = to_bitset N t i) ∧
    none (opXorAssign N t t) = true ∧
    (∀ i, i < N → to_bitset N (opXorAssign N t t) i = false) ∧
    (∀ i, i < N → to_bitset N (opComplement N (opComplement N t)) i = to_bitset N t i) := by
  have hself : ∀ i, i < N → to_bitset N t i = a i := fun i hi =>
    models_to_bitset N t 1 N 1 a _ i hm (by omega) (by omega) le_rfl
  have hand : models N (opAndAssign N t t) 1 N 1 a := by
    have h := and_models N t t 1 N 1 a a hm hm hN (by omega) le_rfl
    exact models_ext N _ 1 N 1 _ a h hN (fun p _ _ => Bool.and_self _)
  have hor : models N (opOrAssign N t t) 1 N 1 a := by
    have h := or_models N t t 1 N 1 a a hm hm hN (by omega) le_rfl
    exact models_ext N _ 1 N 1 _ a h hN (fun p _ _ => Bool.or_self _)
  have hxor : models N (opXorAssign N t t) 1 N 1 (fun _ => false) := by
    have h := xor_models N t t 1 N 1 a a hm hm hN (by omega) le_rfl
    exact models_ext N _ 1 N 1 _ _ h hN (fun p _ _ => Bool.xor_self _)
  have hcc : models N (opComplement N (opComplement N t)) 1 N 1 a := by
    have h1 := flip_models N 1 N 1 t a hm hN (by omega) le_rfl
    have h2 := flip_models N 1 N 1 (flipAll N t) (fun i => !(a i)) h1 hN (by omega) le_rfl
    exact models_ext N _ 1 N 1 _ a h2 hN (fun p _ _ => Bool.not_not _)
  refine ⟨?_, ?_, ?_, ?_, ?_⟩
  · intro i hi
    rw [hself i hi]
    exact models_to_bitset N _ 1 N 1 a _ i hand (by omega) (by omega) le_rfl
  · intro i hi
    rw [hself i hi]
    exact models_to_bitset N _ 1 N 1 a _ i hor (by omega) (by omega) le_rfl
  · have hs := models_summary N _ 1 N 1 _ hxor hN
    have hroot : opXorAssign N t t 1 = false := by
      by_contra hc
      have hc' : opXorAssign N t t 1 = true := by simpa using hc
      obtain ⟨p, _, _, hp⟩ := hs.mp hc'
      simp at hp
    simp [none, hroot]
  · intro i hi
    exact models_to_bitset N _ 1 N 1 _ _ i hxor (by omega) (by omega) le_rfl
  · intro i hi
    rw [hself i hi]
    exact models_to_bitset N _ 1 N 1 a _ i hcc (by omega) (by omega) le_rfl

theorem C9_self_ops_witness :
    (1 : Nat) ≤ 2 ∧
      models 2 (ofBitset 2 (fun i => i == 0)) 1 2 1 (fun i => i == 0) = true ∧
      ((∀ i, i < 2 → to_bitset 2 (opAndAssign 2 (ofBitset 2 (fun i => i == 0))
            (ofBitset 2 (fun i => i == 0))) i =
          to_bitset 2 (ofBitset 2 (fun i => i == 0)) i) ∧
        (∀ i, i < 2 → to_bitset 2 (opOrAssign 2 (ofBitset 2 (fun i => i == 0))
            (ofBitset 2 (fun i => i == 0))) i =
          to_bitset 2 (ofBitset 2 (fun i => i == 0)) i) ∧
        none (opXorAssign 2 (ofBitset 2 (fun i => i == 0))
            (ofBitset 2 (fun i => i == 0))) = true ∧
        (∀ i, i < 2 → to_bitset 2 (opXorAssign 2 (ofBitset 2 (fun i => i == 0))
            (ofBitset 2 (fun i => i == 0))) i = false) ∧
        (∀ i, i < 2 → to_bitset 2 (opComplement 2 (opComplement 2
            (ofBitset 2 (fun i => i == 0)))) i =
          to_bitset 2 (ofBitset 2 (fun i => i == 0)) i)) :=
  ⟨by decide, by decide,
    C9_self_ops 2 (ofBitset 2 (fun i => i == 0)) (fun i => i == 0) (by decide) (by decide)⟩

/-- leastIn returns 0 when no position of its window holds a true bit. -/
lemma leastIn_eq_zero (a : Vec) (pos : Nat) : ∀ (k l r : Nat), r + 1 - l ≤ k →
    (∀ p, l ≤ p → pos ≤ p → p ≤ r → a (p - 1) = false) → leastIn a pos l r = 0 := by
  intro k
  induction k with
  | zero =>
    intro l r hk _
    rw [leastIn, if_neg (by omega : ¬ l ≤ r)]
  | succ k ihk =>
    intro l r hk hall
    rw [leastIn]
    by_cases hlr : l ≤ r
    · rw [if_pos hlr, if_neg ?_]
      · exact ihk (l + 1) r (by omega) (fun p h1 h2 h3 => hall p (by omega) h2 h3)
      · rintro ⟨hp, ha⟩
        rw [hall l le_rfl hp hlr] at ha
        exact absurd ha (by simp)
    · rw [if_neg hlr]

/-- When leastIn returns 0 and the window starts at a positive bound, every
position of the window is false. -/
lemma leastIn_zero_all (a : Vec) (pos : Nat) : ∀ (k l r : Nat), r + 1 - l ≤ k → 1 ≤ l →
    leastIn a pos l r = 0 → ∀ p, l ≤ p → pos ≤ p → p ≤ r → a (p - 1) = false := by
  intro k
  induction k with
  | zero => intro l r hk _ _ p h1 _ h3; omega
  | succ k ihk =>
    intro l r hk hl h0 p h1 h2 h3
    rw [leastIn, if_pos (by omega : l ≤ r)] at h0
    by_cases hc : pos ≤ l ∧ a (l - 1) = true
    · rw [if_pos hc] at h0
      omega
    · rw [if_neg hc] at h0
      by_cases hpl : p = l
      · subst hpl
        push_neg at hc
        simpa using hc h2
      · exact ihk (l + 1) r (by omega) (by omega) h0 p (by omega) h2 h3

/-- When leastIn finds a position, it is the least position of its window
holding a true bit. -/
lemma leastIn_found_spec (a : Vec) (pos : Nat) : ∀ (k l r : Nat), r + 1 - l ≤ k → 1 ≤ l →
    leastIn a pos l r ≠ 0 →
    l ≤ leastIn a pos l r ∧ pos ≤ leastIn a pos l r ∧ leastIn a pos l r ≤ r ∧
      a (leastIn a pos l r - 1) = true ∧
      ∀ p, l ≤ p → pos ≤ p → p < leastIn a pos l r → a (p - 1) = false := by
  intro k
  induction k with
  | zero =>
    intro l r hk _ h0
    rw [leastIn, if_neg (by omega : ¬ l ≤ r)] at h0
    exact absurd rfl h0
  | succ k ihk =>
    intro l r hk hl h0
    rw [leastIn] at h0 ⊢
    by_cases hlr : l ≤ r
    · rw [if_pos hlr] at h0 ⊢
      by_cases hc : pos ≤ l ∧ a (l - 1) = true
      · rw [if_pos hc] at h0 ⊢
        exact ⟨le_rfl, hc.1, hlr, hc.2, fun p h1 _ h3 => by omega⟩
      · rw [if_neg hc] at h0 ⊢
        obtain ⟨g1, g2, g3, g4, g5⟩ := ihk (l + 1) r (by omega) (by omega) h0
        refine ⟨by omega, g2, g3, g4, ?_⟩
        intro p h1 h2 h3
        by_cases hpl : p = l
        · subst hpl
          push_neg at hc
          simpa using hc h2
        · exact g5 p (by omega) h2 h3
    · rw [if_neg hlr] at h0
      exact absurd rfl h0

/-- Splitting the window of leastIn at a midpoint. -/
lemma leastIn_split (a : Vec) (pos : Nat) : ∀ (k l m r : Nat), r + 1 - l ≤ k → 1 ≤ l →
    l ≤ m → m ≤ r →
    leastIn a pos l r =
      (if leastIn a pos l m = 0 then leastIn a pos (m + 1) r else leastIn a pos l m) := by
  intro k
  induction k with
  | zero => intro l m r hk _ h1 h2; omega
  | succ k ihk =>
    intro l m r hk hl hlm hmr
    by_cases hc : pos ≤ l ∧ a (l - 1) = true
    · rw [show leastIn a pos l m = l from by rw [leastIn, if_pos hlm, if_pos hc],
          if_neg (by omega : ¬ l = 0), leastIn, if_pos (by omega : l ≤ r), if_pos hc]
    · by_cases hlm' : l = m
      · subst hlm'
        have h1 : leastIn a pos l l = 0 := by
          rw [leastIn, if_pos le_rfl, if_neg hc, leastIn, if_neg (by omega)]
        rw [h1, if_pos rfl, leastIn, if_pos (by omega : l ≤ r), if_neg hc]
      · have hLm : leastIn a pos l m = leastIn a pos (l + 1) m := by
          rw [leastIn, if_pos (by omega : l ≤ m), if_neg hc]
        rw [leastIn, if_pos (by omega : l ≤ r), if_neg hc, hLm]
        exact ihk (l + 1) m r (by omega) (by omega) (by omega) hmr

/-- The search of __next over a modeled subtree computes leastIn: the least
1-based position at least pos of the range holding a true bit, or 0. -/
lemma next_eq_leastIn : ∀ (fuel : Nat) (t : Tree) (pos l r x : Nat) (a : Vec),
    models fuel t l r x a = true → l ≤ r → r - l < fuel → 1 ≤ x → 1 ≤ l →
    __next fuel t pos l r x 0 = leastIn a pos l r := by
  intro fuel
  induction fuel with
  | zero => intro t pos l r x a _ _ hf _ _; omega
  | succ fuel ih =>
    intro t pos l r x a hm hlr0 hf hx hl
    simp only [__next]
    by_cases h0 : t x = false
    · rw [if_pos h0]
      exact (leastIn_eq_zero a pos (r + 1 - l) l r le_rfl
        (fun p h1 h2 h3 => summary_false_all hm hlr0 h0 p h1 h3)).symm
    · rw [if_neg h0]
      by_cases hrp : r < pos
      · rw [if_pos hrp]
        refine (leastIn_eq_zero a pos (r + 1 - l) l r le_rfl ?_).symm
        intro p h1 h2 h3
        omega
      · rw [if_neg hrp]
        by_cases hlr : l = r
        · rw [if_pos hlr]
          have hleaf : t x = a (l - 1) := by
            simp only [models, if_pos hlr] at hm
            exact eq_of_beq hm
          have htx : t x = true := by
            cases he : t x
            · exact absurd he h0
            · rfl
          rw [leastIn, if_pos hlr0, if_pos ⟨by omega, by rw [← hleaf]; exact htx⟩]
        · rw [if_neg hlr]
          simp only [models, if_neg hlr, Bool.and_eq_true] at hm
          have hm1 : l ≤ (l + r) / 2 := by omega
          have hm2 : (l + r) / 2 < r := by omega
          set m := (l + r) / 2 with hmdef
          have hA : (if True ∧ t (__ls x) = true then __next fuel t pos l m (__ls x) 0 else 0) =
              leastIn a pos l m := by
            by_cases hlx : t (__ls x) = true
            · rw [if_pos ⟨trivial, hlx⟩]
              exact ih t pos l m (__ls x) a hm.1.2 hm1 (by omega)
                (by simp only [__ls]; omega) hl
            · rw [if_neg (fun hcc => hlx hcc.2)]
              have hlxf : t (__ls x) = false := by
                cases he : t (__ls x)
                · rfl
                · exact absurd he hlx
              exact (leastIn_eq_zero a pos (m + 1 - l) l m le_rfl
                (fun p h1 h2 h3 => summary_false_all hm.1.2 hm1 hlxf p h1 h3)).symm
          rw [hA, leastIn_split a pos (r + 1 - l) l m r le_rfl hl hm1 (by omega)]
          by_cases hA0 : leastIn a pos l m = 0
          · rw [if_pos hA0]
            by_cases hrx : t (__rs x) = true
            · rw [if_pos ⟨hA0, hrx⟩, hA0]
              exact ih t pos (m + 1) r (__rs x) a hm.2 (by omega) (by omega)
                (by simp only [__rs]; omega) (by omega)
            · rw [if_neg (fun hcc => hrx hcc.2), hA0]
              have hrxf : t (__rs x) = false := by
                cases he : t (__rs x)
                · rfl
                · exact absurd he hrx
              exact (leastIn_eq_zero a pos (r + 1 - (m + 1)) (m + 1) r le_rfl
                (fun p h1 h2 h3 => summary_false_all hm.2 (by omega) hrxf p h1 h3)).symm
          · rw [if_neg hA0, if_neg (fun hcc => hA0 hcc.1)]

/-- first on a modeled structure decodes leastIn from position 1. -/
lemma first_eq_decode (N : Nat) (t : Tree) (a : Vec)
    (hm : models N t 1 N 1 a = true) (hN : 1 ≤ N) :
    first N t = decode N (leastIn a 1 1 N) := by
  simp only [first, decode]
  rw [next_eq_leastIn N t 1 1 N 1 a hm hN (by omega) le_rfl le_rfl]

/-- next on a modeled structure decodes leastIn from position pos + 2. -/
lemma next_eq_decode (N : Nat) (t : Tree) (a : Vec) (p : Nat)
    (hm : models N t 1 N 1 a = true) (hN : 1 ≤ N) :
    next N t p = decode N (leastIn a (p + 2) 1 N) := by
  simp only [next, decode]
  rw [next_eq_leastIn N t (p + 2) 1 N 1 a hm hN (by omega) le_rfl le_rfl]

/-- Dropping an all-false prefix of a filtered index range. -/
lemma filter_range'_prefix_false (a : Vec) : ∀ (k s lo : Nat),
    (∀ i, lo ≤ i → i < lo + k → a i = false) →
    (List.range' lo (k + s)).filter (fun i => a i) =
      (List.range' (lo + k) s).filter (fun i => a i) := by
  intro k
  induction k with
  | zero => intro s lo _; simp
  | succ k ihk =>
    intro s lo hfalse
    rw [show k + 1 + s = (k + s) + 1 from by omega, List.range'_succ,
        List.filter_cons_of_neg (by simp [hfalse lo le_rfl (by omega)]),
        ihk s (lo + 1) (fun i h1 h2 => hfalse i (by omega) (by omega)),
        show lo + 1 + k = lo + (k + 1) from by omega]

/-- The first/next iteration idiom started at the least set index at least
lo enumerates exactly the set indices of [lo, N), in ascending order. -/
lemma enumFrom_eq (N : Nat) (t : Tree) (a : Vec)
    (hm : models N t 1 N 1 a = true) (hN : 1 ≤ N) :
    ∀ (fuel lo : Nat), N - lo < fuel → lo ≤ N →
    enumFrom N t fuel (decode N (leastIn a (lo + 1) 1 N)) =
      (List.range' lo (N - lo)).filter (fun i => a i) := by
  intro fuel
  induction fuel with
  | zero => intro lo hf _; omega
  | succ fuel ihf =>
    intro lo hf hloN
    by_cases h0 : leastIn a (lo + 1) 1 N = 0
    · have hall : ∀ i, lo ≤ i → i < N → a i = false := by
        intro i h1 h2
        have := leastIn_zero_all a (lo + 1) N 1 N (by omega) le_rfl h0 (i + 1)
          (by omega) (by omega) (by omega)
        simpa using this
      rw [h0, show decode N 0 = N from by simp [decode]]
      simp only [enumFrom, if_pos rfl]
      refine (List.filter_eq_nil_iff.mpr ?_).symm
      intro i hi
      rw [List.mem_range'_1] at hi
      simp [hall i hi.1 (by omega)]
    · obtain ⟨hq1, hq2, hq3, hq4, hq5⟩ :=
        leastIn_found_spec a (lo + 1) N 1 N (by omega) le_rfl h0
      set q := leastIn a (lo + 1) 1 N with hqdef
      have hdq : decode N q = q - 1 := by simp [decode, h0]
      have hjN : q - 1 < N := by omega
      have hjlo : lo ≤ q - 1 := by omega
      have hbefore : ∀ i, lo ≤ i → i < q - 1 → a i = false := by
        intro i h1 h2
        have := hq5 (i + 1) (by omega) (by omega) (by omega)
        simpa using this
      rw [hdq]
      simp only [enumFrom, if_neg (by omega : ¬ q - 1 = N)]
      rw [next_eq_decode N t a (q - 1) hm hN,
          show q - 1 + 2 = (q - 1 + 1) + 1 from by omega,
          ihf (q - 1 + 1) (by omega) (by omega)]
      have hsplit : N - lo = (q - 1 - lo) + (N - (q - 1)) := by omega
      rw [hsplit,
          filter_range'_prefix_false a (q - 1 - lo) (N - (q - 1)) lo
            (fun i h1 h2 => hbefore i h1 (by omega)),
          show lo + (q - 1 - lo) = q - 1 from by omega,
          show N - (q - 1) = (N - (q - 1 + 1)) + 1 from by omega,
          List.range'_succ,
          List.filter_cons_of_pos (by simpa using hq4)]

/-- The foreach traversal of a modeled subtree appends to the accumulator
exactly the set indices of the covered 0-based range, in ascending order. -/
lemma foreach_models : ∀ (fuel : Nat) (t : Tree) (l r x : Nat) (a : Vec) (acc : List Nat),
    models fuel t l r x a = true → l ≤ r → r - l < fuel → 1 ≤ l →
    __foreach1 fuel t l r x acc =
      acc ++ (List.range' (l - 1) (r + 1 - l)).filter (fun i => a i) := by
  intro fuel
  induction fuel with
  | zero => intro t l r x a acc _ _ hf _; omega
  | succ fuel ih =>
    intro t l r x a acc hm hlr0 hf hl
    simp only [__foreach1]
    by_cases h0 : t x = false
    · rw [if_pos h0]
      have hnil : (List.range' (l - 1) (r + 1 - l)).filter (fun i => a i) = [] := by
        refine List.filter_eq_nil_iff.mpr ?_
        intro i hi
        rw [List.mem_range'_1] at hi
        have := summary_false_all hm hlr0 h0 (i + 1) (by omega) (by omega)
        simpa using this
      rw [hnil]
      simp
    · rw [if_neg h0]
      by_cases hlr : l = r
      · rw [if_pos hlr]
        have hleaf : t x = a (l - 1) := by
          simp only [models, if_pos hlr] at hm
          exact eq_of_beq hm
        have htx : t x = true := by
          cases he : t x
          · exact absurd he h0
          · rfl
        rw [show r + 1 - l = 1 from by omega, List.range'_one,
            List.filter_cons_of_pos (by rw [← hleaf]; exact htx)]
        simp
      · rw [if_neg hlr]
        simp only [models, if_neg hlr, Bool.and_eq_true] at hm
        have hm1 : l ≤ (l + r) / 2 := by omega
        have hm2 : (l + r) / 2 < r := by omega
        set m := (l + r) / 2 with hmdef
        have hacc1 : (if t (__ls x) = true then __foreach1 fuel t l m (__ls x) acc else acc) =
            acc ++ (List.range' (l - 1) (m + 1 - l)).filter (fun i => a i) := by
          by_cases hlx : t (__ls x) = true
          · rw [if_pos hlx]
            exact ih t l m (__ls x) a acc hm.1.2 hm1 (by omega) hl
          · rw [if_neg hlx]
            have hlxf : t (__ls x) = false := by
              cases he : t (__ls x)
              · rfl
              · exact absurd he hlx
            have hnil : (List.range' (l - 1) (m + 1 - l)).filter (fun i => a i) = [] := by
              refine List.filter_eq_nil_iff.mpr ?_
              intro i hi
              rw [List.mem_range'_1] at hi
              have := summary_false_all hm.1.2 hm1 hlxf (i + 1) (by omega) (by omega)
              simpa using this
            rw [hnil]
            simp
        rw [hacc1]
        have hstep : (if t (__rs x) = true then
            __foreach1 fuel t (m + 1) r (__rs x)
              (acc ++ (List.range' (l - 1) (m + 1 - l)).filter (fun i => a i))
            else acc ++ (List.range' (l - 1) (m + 1 - l)).filter (fun i => a i)) =
            (acc ++ (List.range' (l - 1) (m + 1 - l)).filter (fun i => a i)) ++
              (List.range' m (r - m)).filter (fun i => a i) := by
          by_cases hrx : t (__rs x) = true
          · rw [if_pos hrx]
            have := ih t (m + 1) r (__rs x) a
              (acc ++ (List.range' (l - 1) (m + 1 - l)).filter (fun i => a i))
              hm.2 (by omega) (by omega) (by omega)
            rw [this, show m + 1 - 1 = m from by omega,
                show r + 1 - (m + 1) = r - m from by omega]
          · rw [if_neg hrx]
            have hrxf : t (__rs x) = false := by
              cases he : t (__rs x)
              · rfl
              · exact absurd he hrx
            have hnil : (List.range' m (r - m)).filter (fun i => a i) = [] := by
              refine List.filter_eq_nil_iff.mpr ?_
              intro i hi
              rw [List.mem_range'_1] at hi
              have := summary_false_all hm.2 (by omega) hrxf (i + 1) (by omega) (by omega)
              simpa using this
            rw [hnil]
            simp
        rw [hstep, List.append_assoc, ← List.filter_append]
        have hr : List.range' (l - 1) (m + 1 - l) ++ List.range' m (r - m) =
            List.range' (l - 1) (r + 1 - l) := by
          have happ := List.range'_append (l - 1) (m + 1 - l) (r - m) 1
          rw [show l - 1 + 1 * (m + 1 - l) = m from by omega,
              show r - m + (m + 1 - l) = r + 1 - l from by omega] at happ
          exact happ
        rw [hr]

/-- C5: on a structure built from a dense vector, the first/next iteration
sequence and the foreach callback sequence both equal the ascending list
of set indices; first is the sentinel N on an all-false structure, and
next(p) is the sentinel whenever no set bit lies strictly beyond p. -/
theorem C5_enumeration (N : Nat) (a : Vec) (hN : 1 ≤ N) :
    enumSeq N (ofBitset N a) = trueIndices N a ∧
    foreach1 N (ofBitset N a) = trueIndices N a ∧
    ((∀ i, i < N → a i = false) → first N (ofBitset N a) = N) ∧
    (∀ p, (∀ i, p < i → i < N → a i = false) → next N (ofBitset N a) p = N) := by
  have hm : models N (ofBitset N a) 1 N 1 a = true :=
    build_models N a 1 N 1 (fun _ => false) hN (by omega) le_rfl
  refine ⟨?_, ?_, ?_, ?_⟩
  · simp only [enumSeq]
    rw [first_eq_decode N _ a hm hN,
        show (1 : Nat) = 0 + 1 from rfl,
        enumFrom_eq N _ a hm hN (N + 1) 0 (by omega) (by omega),
        trueIndices, List.range_eq_range']
    simp
  · rw [foreach1, foreach_models N _ 1 N 1 a [] hm hN (by omega) le_rfl,
        trueIndices, List.range_eq_range']
    simp
  · intro hall
    rw [first_eq_decode N _ a hm hN,
        leastIn_eq_zero a 1 N 1 N (by omega)
          (fun p h1 h2 h3 => hall (p - 1) (by omega))]
    simp [decode]
  · intro p hnone
    rw [next_eq_decode N _ a p hm hN,
        leastIn_eq_zero a (p + 2) N 1 N (by omega)
          (fun q h1 h2 h3 => hnone (q - 1) (by omega) (by omega))]
    simp [decode]

theorem C5_enumeration_witness :
    (1 : Nat) ≤ 3 ∧
      (enumSeq 3 (ofBitset 3 (fun i => i == 1)) = trueIndices 3 (fun i => i == 1) ∧
        foreach1 3 (ofBitset 3 (fun i => i == 1)) = trueIndices 3 (fun i => i == 1) ∧
        ((∀ i, i < 3 → (i == 1) = false) → first 3 (ofBitset 3 (fun i => i == 1)) = 3) ∧
        (∀ p, (∀ i, p < i → i < 3 → (i == 1) = false) →
          next 3 (ofBitset 3 (fun i => i == 1)) p = 3)) :=
  ⟨by decide, C5_enumeration 3 (fun i => i == 1) (by decide)⟩

end segbitset
